import Mathlib

/-!
Verification development for the handwritten-text-line recognizer models:
a shallow embedding of `LineCNN` (line_cnn.py) and `LineCNNTransformer`
(line_cnn_transformer.py), together with theorems about output shapes,
the greedy autoregressive decoding loop, and causal masking.

Conventions of the embedding:
* machine integers are `Nat`; tensor entries are `ℚ`;
* a batch of token sequences of shape (B, S) is stored column-major as a
  list of S columns, each a list of B tokens (this matches the `(Sy, B)`
  layout the decoder works in after `y.permute(1, 0)`);
* learned parameters (weights of linear layers, attention projections,
  layer norms, the softmax exponential) are abstract function parameters:
  every claim proved here holds for all values of the learned weights;
* `nn.Dropout` in evaluation mode is the identity and is embedded as such;
* the convolutional stack is embedded at the shape level: each layer of
  `_build_advanced_cnn` is represented by its effect on the spatial
  dimensions, composed exactly in the order the `nn.Sequential` lists them.
-/

/-- The `data_config` dictionary handed to both models: `mapping` (the
vocabulary), `input_dims = (C, H, W)` and `output_dims` (a list whose head
is the output length). `α` is the element type of the mapping list
(strings for the real vocabulary; `LineCNNTransformer` rebuilds it as a
list of integers). -/
structure DataConfig (α : Type) where
  mapping : List α
  input_dims : ℕ × ℕ × ℕ
  output_dims : List ℕ

/-- Default hyperparameters from line_cnn.py. -/
def CONV_DIM : ℕ := 32

def FC_DIM : ℕ := 512

def WINDOW_WIDTH : ℕ := 16

def WINDOW_STRIDE : ℕ := 8

/-- Default hyperparameters from line_cnn_transformer.py. -/
def TF_DIM : ℕ := 256

def TF_FC_DIM : ℕ := 256

def TF_NHEAD : ℕ := 4

def TF_LAYERS : ℕ := 4

/-- The optional `argparse` arguments read by the two constructors via
`self.args.get(name, DEFAULT)`; `none` models an absent key. -/
structure ModelArgs where
  conv_dim : Option ℕ := none
  fc_dim : Option ℕ := none
  fc_dropout : Option ℚ := none
  window_width : Option ℕ := none
  window_stride : Option ℕ := none
  limit_output_length : Option Bool := none
  tf_dim : Option ℕ := none
  tf_fc_dim : Option ℕ := none
  tf_nhead : Option ℕ := none
  tf_dropout : Option ℚ := none
  tf_layers : Option ℕ := none

/-- The configuration state `LineCNN.__init__` stores on the module. -/
structure LineCNNModel where
  num_classes : ℕ
  output_length : ℕ
  H : ℕ
  conv_dim : ℕ
  fc_dim : ℕ
  WW : ℕ
  WS : ℕ
  limit_output_length : Bool

/-- `LineCNN.__init__`: reads `num_classes = len(mapping)`,
`output_length = output_dims[0]`, the input height, and the defaulted
hyperparameters. -/
def LineCNN.build (α : Type) (dc : DataConfig α) (args : ModelArgs) : LineCNNModel :=
  { num_classes := dc.mapping.length
    output_length := dc.output_dims.getD 0 0
    H := dc.input_dims.2.1
    conv_dim := args.conv_dim.getD CONV_DIM
    fc_dim := args.fc_dim.getD FC_DIM
    WW := args.window_width.getD WINDOW_WIDTH
    WS := args.window_stride.getD WINDOW_STRIDE
    limit_output_length := args.limit_output_length.getD false }

/-- Output size of a convolution / pooling along one spatial axis:
`floor((size + 2*padding - kernel) / stride) + 1`. -/
def convOutDim (size k s p : ℕ) : ℕ := (size + 2 * p - k) / s + 1

/-- Spatial shape after `nn.Conv2d` with kernel `(kh, kw)`, stride
`(sh, sw)`, padding `(ph, pw)`. -/
def conv2dShape (kh kw sh sw ph pw : ℕ) (hw : ℕ × ℕ) : ℕ × ℕ :=
  (convOutDim hw.1 kh sh ph, convOutDim hw.2 kw sw pw)

/-- Spatial shape after `nn.MaxPool2d(k, s)`. -/
def maxPool2dShape (k s : ℕ) (hw : ℕ × ℕ) : ℕ × ℕ :=
  (convOutDim hw.1 k s 0, convOutDim hw.2 k s 0)

/-- Spatial shape after `_ResBlock`: two 3x3 stride-1 padding-1
convolutions (the 1x1 projection skip and batch norms do not change the
spatial shape). -/
def resBlockShape (hw : ℕ × ℕ) : ℕ × ℕ :=
  conv2dShape 3 3 1 1 1 1 (conv2dShape 3 3 1 1 1 1 hw)

/-- Spatial shape after `LineCNN._build_advanced_cnn`, composing the
layers of the `nn.Sequential` in source order: initial 3x3 conv,
resblock, resblock, 2x2 maxpool, resblock, maxpool, resblock, maxpool,
resblock, maxpool, and the final `(H//16, 3)` conv with padding
`(0, 1)`. `H` is the configured input height used for the final kernel. -/
def advancedCnnShape (H : ℕ) (hw : ℕ × ℕ) : ℕ × ℕ :=
  conv2dShape (H / 16) 3 1 1 0 1
    (maxPool2dShape 2 2 (resBlockShape
      (maxPool2dShape 2 2 (resBlockShape
        (maxPool2dShape 2 2 (resBlockShape
          (maxPool2dShape 2 2 (resBlockShape (resBlockShape
            (conv2dShape 3 3 1 1 1 1 hw))))))))))

/-- Shape `(B, C, S)` of `LineCNN.forward` on an input batch of shape
`(B, 1, H, W)`: the conv stack yields `(B, fc_dim, h, S₀)` (with `h = 1`
for a well-formed configuration, discharged separately), `squeeze(2)` and
the two fully-connected layers turn the channel count into
`num_classes`, and `x[:, :, :output_length]` truncates the sequence
dimension when `limit_output_length` is set. -/
def LineCNN.forwardShape (m : LineCNNModel) (B H W : ℕ) : ℕ × ℕ × ℕ :=
  let s := (advancedCnnShape m.H (H, W)).2
  (B, m.num_classes, if m.limit_output_length then min m.output_length s else s)

theorem advancedCnnShape_eval (H W : ℕ) (hH : H % 16 = 0) (hH0 : 0 < H)
    (hW : W % 16 = 0) (hW0 : 0 < W) :
    advancedCnnShape H (H, W) = (1, W / 16) := by
  simp only [advancedCnnShape, conv2dShape, maxPool2dShape, resBlockShape, convOutDim,
    Prod.mk.injEq]
  constructor <;> omega

/-- Concrete data configuration used to instantiate theorems with
hypotheses: vocabulary of the three special tokens, 32x64 single-channel
input images, output length 3. -/
def dcW : DataConfig String :=
  { mapping := ["<S>", "<E>", "<P>"], input_dims := (1, 32, 64), output_dims := [3] }

/-- Absent argparse arguments: every hyperparameter takes its default. -/
def argsDefault : ModelArgs := {}

/-- Arguments with `--limit_output_length` set. -/
def argsLimit : ModelArgs := { limit_output_length := some true }

/-- C1: for an input batch of the configured fixed size (with the default
untruncated configuration), `LineCNN.forward` returns logits of shape
`(B, C, S)` where the sequence length `S = W / 16` is derived from the
configured input width by the four successive 2x downsamplings of the
conv stack built by `_build_advanced_cnn` (the configured window width 16
and stride 8 select this stack's total downsampling; they do not appear
as an explicit sliding-window formula), and the channel count `C` equals
the configured vocabulary size `len(mapping)`.  The second conjunct
records that the stack collapses the height to 1, which `forward`'s
`squeeze(2)` assumes. -/
theorem lineCNN_forward_seq_shape (α : Type) (dc : DataConfig α) (args : ModelArgs) (B : ℕ)
    (hH : dc.input_dims.2.1 % 16 = 0) (hH0 : 0 < dc.input_dims.2.1)
    (hW : dc.input_dims.2.2 % 16 = 0) (hW0 : 0 < dc.input_dims.2.2)
    (hlim : args.limit_output_length.getD false = false) :
    LineCNN.forwardShape (LineCNN.build α dc args) B dc.input_dims.2.1 dc.input_dims.2.2
        = (B, dc.mapping.length, dc.input_dims.2.2 / 16) ∧
      (advancedCnnShape (LineCNN.build α dc args).H
        (dc.input_dims.2.1, dc.input_dims.2.2)).1 = 1 := by
  have h := advancedCnnShape_eval dc.input_dims.2.1 dc.input_dims.2.2 hH hH0 hW hW0
  constructor
  · simp [LineCNN.forwardShape, LineCNN.build, h, hlim]
  · simp [LineCNN.build, h]

theorem lineCNN_forward_seq_shape_witness :
    LineCNN.forwardShape (LineCNN.build String dcW argsDefault) 2 32 64 = (2, 3, 4) :=
  (lineCNN_forward_seq_shape String dcW argsDefault 2 (by decide) (by decide)
    (by decide) (by decide) (by decide)).1

/-- C3: when `limit_output_length` is set, `LineCNN.forward` truncates
the sequence dimension of its output to the configured output length
`output_dims[0]` (the slice `x[:, :, :output_length]` caps the length at
`output_length`, yielding `min output_length S`); when it is not set the
sequence length is the untruncated length `S` computed by the
convolutional stack. -/
theorem lineCNN_limit_output_truncation (α : Type) (dc : DataConfig α) (args : ModelArgs)
    (B H W : ℕ) :
    ((LineCNN.build α dc args).limit_output_length = true →
      (LineCNN.forwardShape (LineCNN.build α dc args) B H W).2.2
        = min (dc.output_dims.getD 0 0) (advancedCnnShape dc.input_dims.2.1 (H, W)).2) ∧
    ((LineCNN.build α dc args).limit_output_length = false →
      (LineCNN.forwardShape (LineCNN.build α dc args) B H W).2.2
        = (advancedCnnShape dc.input_dims.2.1 (H, W)).2) := by
  constructor <;> intro h <;>
    simp only [LineCNN.build] at h <;>
    simp [LineCNN.forwardShape, LineCNN.build, h]

theorem lineCNN_limit_output_truncation_witness :
    (LineCNN.forwardShape (LineCNN.build String dcW argsLimit) 1 32 64).2.2 = 3 ∧
    (LineCNN.forwardShape (LineCNN.build String dcW argsDefault) 1 32 64).2.2 = 4 :=
  ⟨(lineCNN_limit_output_truncation String dcW argsLimit 1 32 64).1 (by decide),
   (lineCNN_limit_output_truncation String dcW argsDefault 1 32 64).2 (by decide)⟩

/-- Embedding/feature vectors of the Transformer: functions `ℕ → ℚ`
(index into the model dimension), so that vector addition, scaling and
summation are the pointwise `Pi` operations. -/
abbrev Vec : Type := ℕ → ℚ

/-- One attention head of `nn.MultiheadAttention`: `score q k` is the
scaled dot product of the projected query and key (the learned `Wq`, `Wk`
and the `1/sqrt(d)` factor are folded into this abstract function), and
`proj` is the learned value projection `Wv`. -/
structure AttnHead where
  score : Vec → Vec → ℚ
  proj : Vec → Vec

/-- `nn.MultiheadAttention`: a list of heads whose per-head outputs are
concatenated and passed through the learned output projection `Wo`,
modelled by the abstract `outProj` on the list of head outputs. -/
structure MHA where
  heads : List AttnHead
  outProj : List Vec → Vec

/-- Output of one attention head for a single query `q` over the
key/value sequence `kvs` (the call sites pass the same tensor as key and
value, as the source does): softmax over the scores of the keys allowed
by `allow`, where a masked-out key (additive `-inf` attention mask or
`True` in the key padding mask) contributes weight `exp(-inf) = 0` and is
excluded from the normalizing sum. `expF` is the softmax exponential,
kept abstract.  `rawW` is the unnormalized softmax weight of key `j`:
a masked-out key (additive `-inf` attention mask or `True` in the key
padding mask) gets `exp(-inf) = 0` and drops out of the normalizing sum. -/
def rawW (expF : ℚ → ℚ) (allow : ℕ → Bool) (h : AttnHead) (q : Vec) (kvs : List Vec)
    (j : ℕ) : ℚ :=
  if allow j then expF (h.score q (kvs.getD j 0)) else 0

def headOut (expF : ℚ → ℚ) (allow : ℕ → Bool) (h : AttnHead) (q : Vec) (kvs : List Vec) :
    Vec :=
  let denom : ℚ := ((List.range kvs.length).map (rawW expF allow h q kvs)).sum
  ((List.range kvs.length).map
    (fun j => (rawW expF allow h q kvs j / denom) • h.proj (kvs.getD j 0))).sum

/-- Multi-head attention over a sequence of queries `qs` and a key/value
sequence `kvs`; `allowed s j` says whether query position `s` may attend
to key position `j`. -/
def mhaOut (expF : ℚ → ℚ) (M : MHA) (allowed : ℕ → ℕ → Bool) (qs kvs : List Vec) :
    List Vec :=
  (List.range qs.length).map (fun s =>
    M.outProj (M.heads.map (fun h => headOut expF (allowed s) h (qs.getD s 0) kvs)))

/-- Learned state of one `EnhancedTransformerDecoderLayer`: the three
layer norms, the self- and cross-attention modules, and the feed-forward
network (`Linear`, `GELU`, `Linear`), all positionwise maps kept
abstract. -/
structure DecoderLayerP where
  norm1 : Vec → Vec
  norm2 : Vec → Vec
  norm3 : Vec → Vec
  self_attn : MHA
  cross_attn : MHA
  ffn : Vec → Vec

/-- Positionwise sum of two equal-length sequences of vectors (the
residual connections `tgt = tgt + dropout(tgt2)`, with dropout the
identity in evaluation mode). -/
def addVL (a b : List Vec) : List Vec := List.zipWith (fun u v => u + v) a b

/-- `EnhancedTransformerDecoderLayer.forward` in evaluation mode:
pre-norm self-attention with the target mask, pre-norm cross-attention
to `memory` (no memory mask or memory key padding mask is passed by
`decode`), pre-norm feed-forward, each with a residual connection. -/
def layerForward (expF : ℚ → ℚ) (L : DecoderLayerP) (memory : List Vec)
    (tgtAllowed : ℕ → ℕ → Bool) (tgt : List Vec) : List Vec :=
  let tgt2 := tgt.map L.norm1
  let t1 := addVL tgt (mhaOut expF L.self_attn tgtAllowed tgt2 tgt2)
  let t2 := addVL t1 (mhaOut expF L.cross_attn (fun _ _ => true) (t1.map L.norm2) memory)
  addVL t2 ((t2.map L.norm3).map L.ffn)

/-- Modelled from the spec: `generate_square_subsequent_mask` from
`transformer_util` (that module is not part of the sources) produces the
causal mask "preventing a position from attending to future positions":
an `n x n` matrix whose entry `(i, j)` allows attention (additive mask 0)
iff `j ≤ i`, and is `-inf` otherwise.  `true` encodes an allowed pair. -/
def squareSubsequentMask (n : ℕ) : List (List Bool) :=
  (List.range n).map (fun i => (List.range n).map (fun j => decide (j ≤ i)))

/-- The slice `mask[:k, :k]` taken by `decode`. -/
def sliceMask (mask : List (List Bool)) (k : ℕ) : List (List Bool) :=
  (mask.take k).map (fun row => row.take k)

/-- The learned parameters `LineCNNTransformer.__init__` creates, kept
abstract: the token embedding table, the rows of the final
`nn.Linear(dim, num_classes)` (one row built per class index), the
additive positional-encoding table, the softmax exponential, the
`sqrt(dim)` scaling factor (irrational, so abstract), and one decoder
layer per index. -/
structure TWeights where
  sqrt_dim : ℚ
  embedW : ℕ → Vec
  fcRow : ℕ → Vec → ℚ
  pe : ℕ → Vec
  expF : ℚ → ℚ
  layerOf : ℕ → DecoderLayerP

/-- The state `LineCNNTransformer.__init__` stores on the module. -/
structure TModel where
  mapping : List String
  num_classes : ℕ
  start_token : ℕ
  end_token : ℕ
  padding_token : ℕ
  max_output_length : ℕ
  dim : ℕ
  line_cnn : LineCNNModel
  sqrt_dim : ℚ
  embedW : ℕ → Vec
  fcRows : List (Vec → ℚ)
  pe : ℕ → Vec
  y_mask : List (List Bool)
  expF : ℚ → ℚ
  layers : List DecoderLayerP

/-- The dictionary comprehension
`inverse_mapping = {val: ind for ind, val in enumerate(mapping)}`: the
last occurrence of a value wins. -/
def inverseMapping (mapping : List String) (val : String) : ℕ :=
  mapping.length - 1 - mapping.reverse.indexOf val

/-- `LineCNNTransformer.__init__`: special tokens looked up through the
inverse mapping, `max_output_length = output_dims[0]`, `dim` from the
`tf_dim` argument, the wrapped `LineCNN` built on a copy of the data
config whose mapping is replaced by `list(range(dim))`, the causal mask
pre-generated at size `max_output_length`, the final linear layer with
one row per class, and `tf_layers` decoder layers. -/
def LineCNNTransformer.build (dc : DataConfig String) (args : ModelArgs) (w : TWeights) :
    TModel :=
  let num_classes := dc.mapping.length
  let dim := args.tf_dim.getD TF_DIM
  { mapping := dc.mapping
    num_classes := num_classes
    start_token := inverseMapping dc.mapping "<S>"
    end_token := inverseMapping dc.mapping "<E>"
    padding_token := inverseMapping dc.mapping "<P>"
    max_output_length := dc.output_dims.getD 0 0
    dim := dim
    line_cnn := LineCNN.build ℕ
      { mapping := List.range dim, input_dims := dc.input_dims,
        output_dims := dc.output_dims } args
    sqrt_dim := w.sqrt_dim
    embedW := w.embedW
    fcRows := (List.range num_classes).map w.fcRow
    pe := w.pe
    y_mask := squareSubsequentMask (dc.output_dims.getD 0 0)
    expF := w.expF
    layers := (List.range (args.tf_layers.getD TF_LAYERS)).map w.layerOf }

/-- Shape `(Sx, B, E)` of `LineCNNTransformer.encode` on a `(B, H, W)`
image batch: the `LineCNN` output `(B, E, Sx)` is scaled (shape
preserved), permuted by `(2, 0, 1)` and positionally encoded (shape
preserved). -/
def LineCNNTransformer.encodeShape (m : TModel) (B H W : ℕ) : ℕ × ℕ × ℕ :=
  let s := LineCNN.forwardShape m.line_cnn B H W
  (s.2.2, s.1, s.2.1)

/-- `LineCNNTransformer.decode` on a single batch element, without the
attention-mask size check: padding mask `y == padding_token`, scaled
embedding, positional encoding, the causal mask sliced to
`y_mask[:Sy, :Sy]`, the stack of decoder layers with
`tgt_key_padding_mask`, and the final linear layer producing one logit
per class.  All batched tensor operations of the source act on each
batch element independently, so the batched `decode` below maps this
over the batch. -/
def padMaskL (m : TModel) (y : List ℕ) : List Bool :=
  y.map (fun t => decide (t = m.padding_token))

/-- The scaled token embeddings `self.embedding(y) * math.sqrt(self.dim)`. -/
def embSeq (m : TModel) (y : List ℕ) : List Vec :=
  y.map (fun t => m.sqrt_dim • m.embedW t)

/-- Modelled from the spec: `PositionalEncoding` from `transformer_util`
(not part of the sources) adds a fixed position-dependent vector to each
sequence position (`x + pe[:x.size(0)]`); the table itself is the
abstract parameter `pe`. -/
def posEnc (pe : ℕ → Vec) (vs : List Vec) : List Vec :=
  List.zipWith (fun v i => v + pe i) vs (List.range vs.length)

/-- Which key positions query position `s` of the self-attention may
use: the sliced causal mask entry `(s, j)` must be 0 (not `-inf`) and
key `j` must not be masked by `tgt_key_padding_mask`. -/
def allowedFn (m : TModel) (y : List ℕ) : ℕ → ℕ → Bool := fun s j =>
  ((sliceMask m.y_mask y.length).getD s []).getD j false
    && !((padMaskL m y).getD j false)

def decodeSeqCore (m : TModel) (memory : List Vec) (y : List ℕ) : List (List ℚ) :=
  (m.layers.foldl
      (fun t L => layerForward m.expF L memory (allowedFn m y) t)
      (posEnc m.pe (embSeq m y))).map
    (fun v => m.fcRows.map (fun f => f v))

/-- The shape check `nn.MultiheadAttention` performs on `attn_mask`: the
sliced causal mask must be exactly `Sy x Sy`; a prefix longer than
`max_output_length` leaves the sliced mask too small and the attention
call raises. -/
def maskFits (m : TModel) (Sy : ℕ) : Bool :=
  (sliceMask m.y_mask Sy).length == Sy &&
    (sliceMask m.y_mask Sy).all (fun row => row.length == Sy)

/-- `LineCNNTransformer.decode` on a batch: `y` is the `(Sy, B)`
column-major token prefix (the layout after `y.permute(1, 0)`), `memory`
the encoded image sequence; returns `(Sy, B, C)` logits, or `none` when
the sliced causal mask does not fit the prefix. -/
def LineCNNTransformer.decode (m : TModel) (memory : List Vec) (y : List (List ℕ)) :
    Option (List (List (List ℚ))) :=
  if maskFits m y.length then
    some ((List.range y.length).map (fun s =>
      (List.range (y.headD []).length).map (fun b =>
        (decodeSeqCore m memory (y.map (fun col => col.getD b 0))).getD s [])))
  else none

/-- `torch.argmax` over a logit vector: index of the first maximal
entry (`bestIdx`/`bestVal` track the running first maximum). -/
def argmaxAux : List ℚ → ℕ → ℕ → ℚ → ℕ
  | [], _, bestIdx, _ => bestIdx
  | x :: xs, i, bestIdx, bestVal =>
    if bestVal < x then argmaxAux xs (i + 1) i x else argmaxAux xs (i + 1) bestIdx bestVal

def argmaxIdx : List ℚ → ℕ
  | [] => 0
  | x :: xs => argmaxAux xs 1 0 x

/-- One iteration of the generation loop of `LineCNNTransformer.forward`:
`y = output_tokens[:, :Sy]`, `output = argmax(decode(x, y), dim=-1)`,
`output_tokens[:, Sy] = output[-1:]` — decode the current prefix, take
the argmax over classes at every position, and write the newest
position's tokens into column `Sy`. -/
def genStep (decodeF : List (List ℕ) → Option (List (List (List ℚ))))
    (tokens : List (List ℕ)) (Sy : ℕ) : Option (List (List ℕ)) :=
  (decodeF (tokens.take Sy)).map (fun out =>
    tokens.set Sy ((out.map (fun pos => pos.map argmaxIdx)).getLastD []))

/-- The generation loop `for Sy in range(1, S)` run up to and including
step `k`: `genUpto decodeF tokens0 k` performs steps `1, 2, ..., k`. -/
def genUpto (decodeF : List (List ℕ) → Option (List (List (List ℚ))))
    (tokens0 : List (List ℕ)) : ℕ → Option (List (List ℕ))
  | 0 => some tokens0
  | k + 1 => (genUpto decodeF tokens0 k).bind (fun t => genStep decodeF t (k + 1))

/-- One iteration of the post-processing loop: rows whose previous token
is the end token or the padding token get their token at column `Sy`
forced to padding. -/
def padStep (endT padT : ℕ) (tokens : List (List ℕ)) (Sy : ℕ) : List (List ℕ) :=
  tokens.set Sy (List.zipWith
    (fun p c => if p = endT ∨ p = padT then padT else c)
    (tokens.getD (Sy - 1) []) (tokens.getD Sy []))

/-- The post-processing loop `for Sy in range(1, S)` run up to and
including step `k`. -/
def padUpto (endT padT : ℕ) (tokens0 : List (List ℕ)) : ℕ → List (List ℕ)
  | 0 => tokens0
  | k + 1 => padStep endT padT (padUpto endT padT tokens0 k) (k + 1)

/-- The initial output buffer: `(torch.ones((B, S)) * padding).long()`
filled with the padding token, then `output_tokens[:, 0] = start_token`;
stored column-major (S columns of B tokens). -/
def initTokens (S B startT padT : ℕ) : List (List ℕ) :=
  (List.replicate S (List.replicate B padT)).set 0 (List.replicate B startT)

/-- `LineCNNTransformer.forward` after `x = self.encode(x)`: the greedy
generation loop over positions `1 .. S-1` followed by the padding
post-processing loop, on the encoded memory of a batch of `B` images
(the encoder itself is embedded at the shape level, so the encoded
memory is a parameter here; every theorem below holds for all of its
values).  Returns `none` if some decode call fails its mask size check
(it never does — see the safety theorem). -/
def LineCNNTransformer.forward (m : TModel) (memory : List Vec) (B : ℕ) :
    Option (List (List ℕ)) :=
  let S := m.max_output_length
  (genUpto (LineCNNTransformer.decode m memory)
      (initTokens S B m.start_token m.padding_token) (S - 1)).map
    (fun t => padUpto m.end_token m.padding_token t (S - 1))

/-- Row `b` of a column-major `(B, S)` token buffer: the token sequence
the model returns for batch element `b`. -/
def rowSeq (tokens : List (List ℕ)) (b : ℕ) : List ℕ :=
  tokens.map (fun col => col.getD b 0)

theorem getElem?_rangeMap {α : Type} (f : ℕ → α) (n s : ℕ) :
    ((List.range n).map f)[s]? = if s < n then some (f s) else none := by
  by_cases h : s < n
  · simp [List.getElem?_map, List.getElem?_range h, h]
  · rw [List.getElem?_eq_none (by simpa using Nat.le_of_not_lt h)]
    simp [h]

theorem getD_rangeMap {α : Type} (f : ℕ → α) (n s : ℕ) (d : α) (h : s < n) :
    ((List.range n).map f).getD s d = f s := by
  rw [List.getD_eq_getElem?_getD, getElem?_rangeMap]
  simp [h]

theorem length_mhaOut (expF : ℚ → ℚ) (M : MHA) (allowed : ℕ → ℕ → Bool)
    (qs kvs : List Vec) : (mhaOut expF M allowed qs kvs).length = qs.length := by
  simp [mhaOut]

theorem length_addVL (a b : List Vec) : (addVL a b).length = min a.length b.length := by
  simp [addVL]

theorem length_layerForward (expF : ℚ → ℚ) (L : DecoderLayerP) (memory : List Vec)
    (allowed : ℕ → ℕ → Bool) (t : List Vec) :
    (layerForward expF L memory allowed t).length = t.length := by
  simp [layerForward, length_addVL, length_mhaOut]

theorem length_foldl_layers (expF : ℚ → ℚ) (memory : List Vec) (allowed : ℕ → ℕ → Bool)
    (layers : List DecoderLayerP) (t : List Vec) :
    (layers.foldl (fun t L => layerForward expF L memory allowed t) t).length = t.length := by
  induction layers generalizing t with
  | nil => rfl
  | cons L ls ih => simp [List.foldl_cons, ih, length_layerForward]

theorem length_posEnc (pe : ℕ → Vec) (vs : List Vec) : (posEnc pe vs).length = vs.length := by
  simp [posEnc]

theorem length_decodeSeqCore (m : TModel) (memory : List Vec) (y : List ℕ) :
    (decodeSeqCore m memory y).length = y.length := by
  simp [decodeSeqCore, length_foldl_layers, length_posEnc, embSeq]

theorem mem_decodeSeqCore_length (m : TModel) (memory : List Vec) (y : List ℕ)
    (v : List ℚ) (hv : v ∈ decodeSeqCore m memory y) : v.length = m.fcRows.length := by
  simp only [decodeSeqCore, List.mem_map] at hv
  obtain ⟨w, _, rfl⟩ := hv
  simp

theorem getElem?_range_eq (n s : ℕ) :
    (List.range n)[s]? = if s < n then some s else none := by
  by_cases h : s < n
  · simp [List.getElem?_range h, h]
  · rw [List.getElem?_eq_none (by simpa using Nat.le_of_not_lt h)]
    simp [h]

theorem maskFits_iff (m : TModel) (n : ℕ) (hm : m.y_mask = squareSubsequentMask n)
    (Sy : ℕ) : maskFits m Sy = true ↔ Sy ≤ n := by
  constructor
  · intro h
    simp only [maskFits, Bool.and_eq_true, beq_iff_eq] at h
    have h1 := h.1
    simp [sliceMask, hm, squareSubsequentMask] at h1
    omega
  · intro h
    rw [maskFits, hm]
    simp only [Bool.and_eq_true, beq_iff_eq, List.all_eq_true]
    constructor
    · simp [sliceMask, squareSubsequentMask]
      omega
    · intro row hrow
      rw [sliceMask, squareSubsequentMask] at hrow
      simp only [List.mem_map] at hrow
      obtain ⟨r, hr, hrow⟩ := hrow
      have hmem := List.mem_of_mem_take hr
      simp only [List.mem_map] at hmem
      obtain ⟨i, _, hri⟩ := hmem
      have hrn : r.length = n := by rw [← hri]; simp
      rw [← hrow]
      simp [hrn]
      omega

theorem sliceMask_ssm_getD (n k s j : ℕ) :
    ((sliceMask (squareSubsequentMask n) k).getD s []).getD j false
      = (decide (s < k) && decide (s < n) && decide (j < k) && decide (j < n)
          && decide (j ≤ s)) := by
  by_cases h1 : s < k <;> by_cases h2 : s < n <;>
    by_cases h3 : j < k <;> by_cases h4 : j < n <;>
      simp [sliceMask, squareSubsequentMask, List.getD_eq_getElem?_getD,
        List.getElem?_take, getElem?_range_eq, h1, h2, h3, h4]

theorem sliceMask_causal (n k s j : ℕ)
    (h : ((sliceMask (squareSubsequentMask n) k).getD s []).getD j false = true) :
    j ≤ s := by
  rw [sliceMask_ssm_getD] at h
  simp only [Bool.and_eq_true, decide_eq_true_eq] at h
  exact h.2

theorem decode_shape (m : TModel) (memory : List Vec) (y : List (List ℕ))
    (out : List (List (List ℚ)))
    (h : LineCNNTransformer.decode m memory y = some out) :
    out.length = y.length ∧
      ∀ row ∈ out, row.length = (y.headD []).length ∧
        ∀ v ∈ row, v.length = m.fcRows.length := by
  rw [LineCNNTransformer.decode] at h
  by_cases hm : maskFits m y.length = true
  · rw [if_pos hm, Option.some.injEq] at h
    subst h
    refine ⟨by simp, ?_⟩
    intro row hrow
    simp only [List.mem_map, List.mem_range] at hrow
    obtain ⟨s, hs, rfl⟩ := hrow
    refine ⟨by simp, ?_⟩
    intro v hv
    simp only [List.mem_map, List.mem_range] at hv
    obtain ⟨b, hb, rfl⟩ := hv
    have hsl : s < (decodeSeqCore m memory (y.map (fun col => col.getD b 0))).length := by
      rw [length_decodeSeqCore, List.length_map]
      exact hs
    have hmem : (decodeSeqCore m memory (y.map (fun col => col.getD b 0))).getD s []
        ∈ decodeSeqCore m memory (y.map (fun col => col.getD b 0)) := by
      rw [List.getD_eq_getElem?_getD, List.getElem?_eq_getElem hsl]
      simp [List.getElem_mem hsl]
    exact mem_decodeSeqCore_length _ _ _ _ hmem
  · rw [if_neg hm] at h
    simp at h

theorem genStep_length {decodeF : List (List ℕ) → Option (List (List (List ℚ)))}
    {t t' : List (List ℕ)} {Sy : ℕ}
    (h : genStep decodeF t Sy = some t') : t'.length = t.length := by
  rw [genStep] at h
  cases hd : decodeF (t.take Sy) with
  | none => rw [hd] at h; simp at h
  | some out =>
    rw [hd] at h
    simp only [Option.map_some', Option.some.injEq] at h
    rw [← h, List.length_set]

theorem genStep_getD_ne {decodeF : List (List ℕ) → Option (List (List (List ℚ)))}
    {t t' : List (List ℕ)} {Sy j : ℕ} (hj : Sy ≠ j)
    (h : genStep decodeF t Sy = some t') : t'.getD j [] = t.getD j [] := by
  rw [genStep] at h
  cases hd : decodeF (t.take Sy) with
  | none => rw [hd] at h; simp at h
  | some out =>
    rw [hd] at h
    simp only [Option.map_some', Option.some.injEq] at h
    rw [← h, List.getD_eq_getElem?_getD, List.getElem?_set_ne hj,
      ← List.getD_eq_getElem?_getD]

theorem genUpto_length {decodeF : List (List ℕ) → Option (List (List (List ℚ)))}
    {t0 T : List (List ℕ)} {k : ℕ}
    (h : genUpto decodeF t0 k = some T) : T.length = t0.length := by
  induction k generalizing T with
  | zero => rw [genUpto, Option.some.injEq] at h; rw [← h]
  | succ k ih =>
    rw [genUpto] at h
    cases hg : genUpto decodeF t0 k with
    | none => rw [hg] at h; simp at h
    | some t =>
      rw [hg, Option.some_bind] at h
      exact (genStep_length h).trans (ih hg)

theorem genUpto_some_of_le {decodeF : List (List ℕ) → Option (List (List (List ℚ)))}
    {t0 : List (List ℕ)} {k k' : ℕ} (hk : k ≤ k') {T' : List (List ℕ)}
    (h : genUpto decodeF t0 k' = some T') :
    ∃ T, genUpto decodeF t0 k = some T := by
  induction k' generalizing T' with
  | zero => exact ⟨T', (Nat.le_zero.mp hk) ▸ h⟩
  | succ n ih =>
    rcases Nat.lt_or_ge k (n + 1) with hlt | hge
    · rw [genUpto] at h
      cases hg : genUpto decodeF t0 n with
      | none => rw [hg] at h; simp at h
      | some t => exact ih (Nat.lt_succ_iff.mp hlt) hg
    · have hkn : k = n + 1 := le_antisymm hk hge
      exact ⟨T', hkn ▸ h⟩

theorem genUpto_stable {decodeF : List (List ℕ) → Option (List (List (List ℚ)))}
    {t0 : List (List ℕ)} {k d : ℕ} {T T' : List (List ℕ)}
    (hT : genUpto decodeF t0 k = some T) (hT' : genUpto decodeF t0 (k + d) = some T') :
    ∀ j, j ≤ k → T'.getD j [] = T.getD j [] := by
  induction d generalizing T' with
  | zero =>
    rw [Nat.add_zero, hT, Option.some.injEq] at hT'
    subst hT'
    exact fun j _ => rfl
  | succ d ih =>
    rw [show k + (d + 1) = (k + d) + 1 from rfl, genUpto] at hT'
    cases hg : genUpto decodeF t0 (k + d) with
    | none => rw [hg] at hT'; simp at hT'
    | some t =>
      rw [hg, Option.some_bind] at hT'
      intro j hj
      rw [genStep_getD_ne (show k + d + 1 ≠ j by omega) hT', ih hg j hj]

theorem padStep_length (e p : ℕ) (t : List (List ℕ)) (Sy : ℕ) :
    (padStep e p t Sy).length = t.length := by
  rw [padStep, List.length_set]

theorem padUpto_length (e p : ℕ) (t : List (List ℕ)) (k : ℕ) :
    (padUpto e p t k).length = t.length := by
  induction k with
  | zero => rfl
  | succ k ih => rw [padUpto, padStep_length, ih]

theorem padStep_getD_ne (e p : ℕ) (t : List (List ℕ)) {Sy j : ℕ} (h : Sy ≠ j) :
    (padStep e p t Sy).getD j [] = t.getD j [] := by
  rw [padStep, List.getD_eq_getElem?_getD, List.getElem?_set_ne h,
    ← List.getD_eq_getElem?_getD]

theorem padUpto_getD_zero (e p : ℕ) (t : List (List ℕ)) (k : ℕ) :
    (padUpto e p t k).getD 0 [] = t.getD 0 [] := by
  induction k with
  | zero => rfl
  | succ k ih => rw [padUpto, padStep_getD_ne e p _ (by omega), ih]

theorem initTokens_length (S B s p : ℕ) : (initTokens S B s p).length = S := by
  rw [initTokens, List.length_set, List.length_replicate]

theorem initTokens_getD_zero (S B s p : ℕ) (hS : 0 < S) :
    (initTokens S B s p).getD 0 [] = List.replicate B s := by
  rw [initTokens, List.getD_eq_getElem?_getD,
    List.getElem?_set_self (by simpa using hS)]
  rfl

theorem getElem?_eq_of_getD_eq {α : Type} {l l' : List α} {n : ℕ} {d : α}
    (hl : n < l.length) (hl' : n < l'.length) (h : l.getD n d = l'.getD n d) :
    l[n]? = l'[n]? := by
  rw [List.getD_eq_getElem?_getD, List.getD_eq_getElem?_getD,
    List.getElem?_eq_getElem hl, List.getElem?_eq_getElem hl'] at h
  rw [List.getElem?_eq_getElem hl, List.getElem?_eq_getElem hl']
  simpa using h

theorem getD_zipWith {α β γ : Type} (f : α → β → γ) (l1 : List α) (l2 : List β)
    (n : ℕ) (d1 : α) (d2 : β) (d3 : γ) (h1 : n < l1.length) (h2 : n < l2.length) :
    (List.zipWith f l1 l2).getD n d3 = f (l1.getD n d1) (l2.getD n d2) := by
  rw [List.getD_eq_getElem?_getD, List.getElem?_zipWith',
    List.getElem?_eq_getElem h1, List.getElem?_eq_getElem h2,
    List.getD_eq_getElem?_getD, List.getD_eq_getElem?_getD,
    List.getElem?_eq_getElem h1, List.getElem?_eq_getElem h2]
  rfl

theorem getD_replicate {α : Type} (n b : ℕ) (a d : α) (h : b < n) :
    (List.replicate n a).getD b d = a := by
  rw [List.getD_eq_getElem?_getD, List.getElem?_replicate, if_pos h]
  rfl

theorem rowSeq_getD (tokens : List (List ℕ)) (b i : ℕ) (hi : i < tokens.length) :
    (rowSeq tokens b).getD i 0 = (tokens.getD i []).getD b 0 := by
  rw [rowSeq, List.getD_eq_getElem?_getD, List.getElem?_map,
    List.getElem?_eq_getElem hi]
  have hg : tokens.getD i [] = tokens[i] := by
    rw [List.getD_eq_getElem?_getD, List.getElem?_eq_getElem hi]
    rfl
  rw [hg]
  rfl

theorem rowSeq_length (tokens : List (List ℕ)) (b : ℕ) :
    (rowSeq tokens b).length = tokens.length := by
  rw [rowSeq, List.length_map]

theorem initTokens_colsWF (S B s p : ℕ) :
    ∀ col ∈ initTokens S B s p, col.length = B := by
  intro col hcol
  rcases List.mem_or_eq_of_mem_set hcol with hc | hc
  · rw [List.eq_of_mem_replicate hc, List.length_replicate]
  · rw [hc, List.length_replicate]

theorem genStep_colsWF {m : TModel} {memory : List Vec} {B : ℕ}
    {t t' : List (List ℕ)} {Sy : ℕ} (hSy : 1 ≤ Sy)
    (h : genStep (LineCNNTransformer.decode m memory) t Sy = some t')
    (hwf : ∀ col ∈ t, col.length = B) :
    ∀ col ∈ t', col.length = B := by
  rw [genStep] at h
  cases hd : LineCNNTransformer.decode m memory (t.take Sy) with
  | none => rw [hd] at h; simp at h
  | some out =>
    rw [hd] at h
    simp only [Option.map_some', Option.some.injEq] at h
    rw [← h]
    intro col hcol
    cases t with
    | nil => simp at hcol
    | cons c rest =>
      rcases List.mem_or_eq_of_mem_set hcol with hc | hc
      · exact hwf col hc
      · subst hc
        obtain ⟨hlen, hrows⟩ := decode_shape m memory _ out hd
        have hout0 : 0 < out.length := by
          rw [hlen, List.length_take]
          simp
          omega
        have hhead : (((c :: rest).take Sy).headD []) = c := by
          cases Sy with
          | zero => omega
          | succ n => rfl
        rw [List.getLastD_eq_getLast?, List.getLast?_eq_getElem?, List.length_map,
          List.getElem?_map,
          List.getElem?_eq_getElem (show out.length - 1 < out.length by omega)]
        simp only [Option.map_some', Option.getD_some, List.length_map]
        have hmem : out[out.length - 1] ∈ out := List.getElem_mem _
        have hrl := (hrows _ hmem).1
        rw [hrl, hhead]
        exact hwf c (List.mem_cons_self c rest)

theorem genUpto_colsWF {m : TModel} {memory : List Vec} {B : ℕ}
    {t0 T : List (List ℕ)} {k : ℕ}
    (h : genUpto (LineCNNTransformer.decode m memory) t0 k = some T)
    (hwf : ∀ col ∈ t0, col.length = B) :
    ∀ col ∈ T, col.length = B := by
  induction k generalizing T with
  | zero => rw [genUpto, Option.some.injEq] at h; rw [← h]; exact hwf
  | succ k ih =>
    rw [genUpto] at h
    cases hg : genUpto (LineCNNTransformer.decode m memory) t0 k with
    | none => rw [hg] at h; simp at h
    | some t =>
      rw [hg, Option.some_bind] at h
      exact genStep_colsWF (Nat.succ_le_succ (Nat.zero_le k)) h (ih hg)

theorem padStep_colsWF {e p B : ℕ} {t : List (List ℕ)} {Sy : ℕ}
    (hwf : ∀ col ∈ t, col.length = B) :
    ∀ col ∈ padStep e p t Sy, col.length = B := by
  by_cases hSy : Sy < t.length
  · intro col hcol
    rcases List.mem_or_eq_of_mem_set hcol with hc | hc
    · exact hwf col hc
    · have hprev : (t.getD (Sy - 1) []).length = B := by
        have hlt : Sy - 1 < t.length := by omega
        rw [List.getD_eq_getElem?_getD, List.getElem?_eq_getElem hlt]
        exact hwf _ (List.getElem_mem hlt)
      have hcur : (t.getD Sy []).length = B := by
        rw [List.getD_eq_getElem?_getD, List.getElem?_eq_getElem hSy]
        exact hwf _ (List.getElem_mem hSy)
      rw [hc, List.length_zipWith, hprev, hcur, min_self]
  · rw [padStep, List.set_eq_of_length_le (by omega)]
    exact hwf

theorem padUpto_colsWF {e p B : ℕ} {t : List (List ℕ)} (k : ℕ)
    (hwf : ∀ col ∈ t, col.length = B) :
    ∀ col ∈ padUpto e p t k, col.length = B := by
  induction k with
  | zero => exact hwf
  | succ k ih => exact padStep_colsWF ih

/-- C5: every token sequence returned by `LineCNNTransformer.forward`
has length exactly the configured maximum output length
`output_dims[0]`, regardless of where an end token appears. -/
theorem forward_length_eq_max_output_length (dc : DataConfig String) (args : ModelArgs)
    (w : TWeights) (memory : List Vec) (B : ℕ) (out : List (List ℕ))
    (h : LineCNNTransformer.forward (LineCNNTransformer.build dc args w) memory B
      = some out) (b : ℕ) :
    (rowSeq out b).length = dc.output_dims.getD 0 0 := by
  rw [LineCNNTransformer.forward] at h
  cases hg : genUpto
      (LineCNNTransformer.decode (LineCNNTransformer.build dc args w) memory)
      (initTokens (LineCNNTransformer.build dc args w).max_output_length B
        (LineCNNTransformer.build dc args w).start_token
        (LineCNNTransformer.build dc args w).padding_token)
      ((LineCNNTransformer.build dc args w).max_output_length - 1) with
  | none => rw [hg] at h; simp at h
  | some T =>
    rw [hg] at h
    simp only [Option.map_some', Option.some.injEq] at h
    rw [rowSeq_length, ← h, padUpto_length, genUpto_length hg, initTokens_length]
    rfl

/-- Concrete arguments for witness instantiations of the Transformer
theorems: model dimension 2, one decoder layer. -/
def argsW : ModelArgs := { tf_dim := some 2, tf_layers := some 1 }

/-- Concrete learned parameters for witness instantiations: constant
zero tables and a final linear layer that always votes for class 1 (the
end token of `dcW`), so the greedy loop emits an end token and the
post-processing loop pads after it. -/
def wW : TWeights :=
  { sqrt_dim := 1, embedW := fun _ => 0,
    fcRow := fun i => fun _ => if i = 1 then 1 else 0,
    pe := fun _ => 0, expF := fun _ => 1,
    layerOf := fun _ =>
      { norm1 := id, norm2 := id, norm3 := id,
        self_attn := { heads := [], outProj := fun _ => 0 },
        cross_attn := { heads := [], outProj := fun _ => 0 },
        ffn := id } }

theorem forward_length_eq_max_output_length_witness :
    (rowSeq [[0], [1], [2]] 0).length = 3 :=
  forward_length_eq_max_output_length dcW argsW wW [] 1 [[0], [1], [2]] (by decide) 0

/-- C8: position 0 of every sequence returned by
`LineCNNTransformer.forward` is the start token: it is seeded before
generation and neither the generation loop nor the post-processing loop
(which write only columns `Sy ≥ 1`) ever overwrites it. -/
theorem forward_position_zero_start (m : TModel) (memory : List Vec) (B : ℕ)
    (out : List (List ℕ))
    (h : LineCNNTransformer.forward m memory B = some out)
    (hS : 0 < m.max_output_length) (b : ℕ) (hb : b < B) :
    (rowSeq out b).getD 0 0 = m.start_token := by
  rw [LineCNNTransformer.forward] at h
  cases hg : genUpto (LineCNNTransformer.decode m memory)
      (initTokens m.max_output_length B m.start_token m.padding_token)
      (m.max_output_length - 1) with
  | none => rw [hg] at h; simp at h
  | some T =>
    rw [hg] at h
    simp only [Option.map_some', Option.some.injEq] at h
    have hT0 : genUpto (LineCNNTransformer.decode m memory)
        (initTokens m.max_output_length B m.start_token m.padding_token)
        (0 + (m.max_output_length - 1)) = some T := by
      rw [Nat.zero_add]
      exact hg
    have hinit : genUpto (LineCNNTransformer.decode m memory)
        (initTokens m.max_output_length B m.start_token m.padding_token) 0
        = some (initTokens m.max_output_length B m.start_token m.padding_token) := rfl
    have hstab := genUpto_stable hinit hT0 0 (Nat.le_refl 0)
    have hout_len : out.length = m.max_output_length := by
      rw [← h, padUpto_length, genUpto_length hg, initTokens_length]
    rw [rowSeq_getD out b 0 (by omega), ← h, padUpto_getD_zero, hstab,
      initTokens_getD_zero _ _ _ _ hS, getD_replicate B b m.start_token 0 hb]

theorem forward_position_zero_start_witness :
    (rowSeq [[0], [1], [2]] 0).getD 0 0
      = (LineCNNTransformer.build dcW argsW wW).start_token :=
  forward_position_zero_start (LineCNNTransformer.build dcW argsW wW) [] 1
    [[0], [1], [2]] (by decide) (by decide) 0 (by decide)

theorem genUpto_isSome (m : TModel) (memory : List Vec)
    (hm : m.y_mask = squareSubsequentMask m.max_output_length)
    (t0 : List (List ℕ)) (ht0 : t0.length ≤ m.max_output_length) (k : ℕ) :
    (genUpto (LineCNNTransformer.decode m memory) t0 k).isSome = true := by
  induction k with
  | zero => rfl
  | succ k ih =>
    obtain ⟨T, hT⟩ := Option.isSome_iff_exists.mp ih
    rw [genUpto, hT, Option.some_bind, genStep]
    have hlen : (T.take (k + 1)).length ≤ m.max_output_length := by
      rw [List.length_take]
      have := genUpto_length hT
      omega
    have hfits := (maskFits_iff m _ hm _).mpr hlen
    rw [LineCNNTransformer.decode, if_pos hfits]
    rfl

/-- C10: the causal mask is generated once at size
`max_output_length x max_output_length` and sliced to `[:Sy, :Sy]`, so
`decode` succeeds exactly for prefixes with `Sy ≤ max_output_length`
(for longer prefixes the sliced mask is smaller than the prefix and the
attention call fails); and every decode call the greedy loop of
`forward` makes uses a prefix of length between 1 and
`max_output_length - 1`, so `forward` never hits the failure. -/
theorem decode_mask_precondition (dc : DataConfig String) (args : ModelArgs) (w : TWeights)
    (memory : List Vec) :
    (∀ y : List (List ℕ),
        (LineCNNTransformer.decode (LineCNNTransformer.build dc args w) memory y).isSome
            = true
          ↔ y.length ≤ (LineCNNTransformer.build dc args w).max_output_length) ∧
      ∀ B : ℕ,
        (LineCNNTransformer.forward (LineCNNTransformer.build dc args w) memory B).isSome
          = true := by
  have hm : (LineCNNTransformer.build dc args w).y_mask
      = squareSubsequentMask (LineCNNTransformer.build dc args w).max_output_length := rfl
  constructor
  · intro y
    have hd : (LineCNNTransformer.decode (LineCNNTransformer.build dc args w) memory
        y).isSome = maskFits (LineCNNTransformer.build dc args w) y.length := by
      rw [LineCNNTransformer.decode]
      cases hfits : maskFits (LineCNNTransformer.build dc args w) y.length with
      | false => simp
      | true => simp
    rw [hd]
    exact maskFits_iff _ _ hm _
  · intro B
    rw [LineCNNTransformer.forward]
    have hs := genUpto_isSome (LineCNNTransformer.build dc args w) memory hm
      (initTokens (LineCNNTransformer.build dc args w).max_output_length B
        (LineCNNTransformer.build dc args w).start_token
        (LineCNNTransformer.build dc args w).padding_token)
      (by rw [initTokens_length])
      ((LineCNNTransformer.build dc args w).max_output_length - 1)
    obtain ⟨T, hT⟩ := Option.isSome_iff_exists.mp hs
    rw [hT]
    rfl

theorem decode_mask_precondition_witness :
    ((LineCNNTransformer.decode (LineCNNTransformer.build dcW argsW wW) []
          [[0], [0], [0], [0]]).isSome = true ↔ (4 : ℕ) ≤ 3) ∧
      (LineCNNTransformer.forward (LineCNNTransformer.build dcW argsW wW) [] 1).isSome
        = true :=
  ⟨(decode_mask_precondition dcW argsW wW []).1 [[0], [0], [0], [0]],
   (decode_mask_precondition dcW argsW wW []).2 1⟩

/-- C6: for every generation step `Sy` (1 ≤ Sy < max_output_length), the
column the loop wrote at position `Sy` is the argmax over classes of the
logit vector at the last (newest) position of `decode` applied to the
encoded image and exactly the previously produced tokens at positions
`0 .. Sy-1` (which the loop never modifies afterwards, so they can be
read off the loop's final state `T`). -/
theorem greedy_decode_step (m : TModel) (memory : List Vec) (B : ℕ)
    (T : List (List ℕ))
    (hT : genUpto (LineCNNTransformer.decode m memory)
        (initTokens m.max_output_length B m.start_token m.padding_token)
        (m.max_output_length - 1) = some T)
    (Sy : ℕ) (h1 : 1 ≤ Sy) (hS : Sy < m.max_output_length) :
    ∃ out, LineCNNTransformer.decode m memory (T.take Sy) = some out ∧
      T.getD Sy [] = (out.map (fun pos => pos.map argmaxIdx)).getLastD [] := by
  obtain ⟨j, rfl⟩ : ∃ j, Sy = j + 1 := ⟨Sy - 1, by omega⟩
  obtain ⟨Tj1, hTj1⟩ := genUpto_some_of_le
    (show j + 1 ≤ m.max_output_length - 1 by omega) hT
  have hTj1' := hTj1
  rw [genUpto] at hTj1'
  cases hTj : genUpto (LineCNNTransformer.decode m memory)
      (initTokens m.max_output_length B m.start_token m.padding_token) j with
  | none => rw [hTj] at hTj1'; simp at hTj1'
  | some Tj =>
    rw [hTj, Option.some_bind, genStep] at hTj1'
    cases hdec : LineCNNTransformer.decode m memory (Tj.take (j + 1)) with
    | none => rw [hdec] at hTj1'; simp at hTj1'
    | some out0 =>
      rw [hdec] at hTj1'
      simp only [Option.map_some', Option.some.injEq] at hTj1'
      have hlTj : Tj.length = m.max_output_length := by
        rw [genUpto_length hTj, initTokens_length]
      have hlT : T.length = m.max_output_length := by
        rw [genUpto_length hT, initTokens_length]
      have hT' : genUpto (LineCNNTransformer.decode m memory)
          (initTokens m.max_output_length B m.start_token m.padding_token)
          ((j + 1) + (m.max_output_length - 1 - (j + 1))) = some T := by
        rw [show (j + 1) + (m.max_output_length - 1 - (j + 1))
            = m.max_output_length - 1 by omega]
        exact hT
      have hstab1 := genUpto_stable hTj1 hT'
      have htake : T.take (j + 1) = Tj.take (j + 1) := by
        apply List.ext_getElem?
        intro n
        rw [List.getElem?_take, List.getElem?_take]
        by_cases hn : n < j + 1
        · rw [if_pos hn, if_pos hn]
          have e1 : T.getD n [] = Tj1.getD n [] := hstab1 n (by omega)
          have e2 : Tj1.getD n [] = Tj.getD n [] := by
            rw [← hTj1', List.getD_eq_getElem?_getD,
              List.getElem?_set_ne (by omega : j + 1 ≠ n), ← List.getD_eq_getElem?_getD]
          exact getElem?_eq_of_getD_eq (by omega) (by omega) (e1.trans e2)
        · rw [if_neg hn, if_neg hn]
      refine ⟨out0, ?_, ?_⟩
      · rw [htake]
        exact hdec
      · have hcol : T.getD (j + 1) [] = Tj1.getD (j + 1) [] :=
          hstab1 (j + 1) (Nat.le_refl _)
        rw [hcol, ← hTj1', List.getD_eq_getElem?_getD,
          List.getElem?_set_self (by omega : j + 1 < Tj.length)]
        rfl

theorem greedy_decode_step_witness :
    ∃ out, LineCNNTransformer.decode (LineCNNTransformer.build dcW argsW wW) []
        (([[0], [1], [1]] : List (List ℕ)).take 2) = some out ∧
      ([[0], [1], [1]] : List (List ℕ)).getD 2 []
        = (out.map (fun pos => pos.map argmaxIdx)).getLastD [] :=
  greedy_decode_step (LineCNNTransformer.build dcW argsW wW) [] 1 [[0], [1], [1]]
    (by decide) 2 (by decide) (by decide)

theorem padUpto_propagates (e p B : ℕ) (T : List (List ℕ))
    (hwf : ∀ col ∈ T, col.length = B) (k : ℕ) (hk : k < T.length) :
    ∀ i b, 1 ≤ i → i ≤ k → b < B →
      (((padUpto e p T k).getD (i - 1) []).getD b 0 = e ∨
        ((padUpto e p T k).getD (i - 1) []).getD b 0 = p) →
      ((padUpto e p T k).getD i []).getD b 0 = p := by
  induction k with
  | zero => intro i b h1 h2 _ _; omega
  | succ k ih =>
    intro i b h1 h2 hb hprev
    by_cases hik : i ≤ k
    · have e1 : (padUpto e p T (k + 1)).getD (i - 1) []
          = (padUpto e p T k).getD (i - 1) [] := by
        rw [padUpto]
        exact padStep_getD_ne e p _ (by omega)
      have e2 : (padUpto e p T (k + 1)).getD i [] = (padUpto e p T k).getD i [] := by
        rw [padUpto]
        exact padStep_getD_ne e p _ (by omega)
      rw [e2]
      rw [e1] at hprev
      exact ih (by omega) i b h1 hik hb hprev
    · have hik1 : i = k + 1 := by omega
      subst hik1
      have hlen : (padUpto e p T k).length = T.length := padUpto_length e p T k
      have hwfk : ∀ col ∈ padUpto e p T k, col.length = B := padUpto_colsWF k hwf
      have hconeq : (padUpto e p T (k + 1)).getD (k + 1 - 1) []
          = (padUpto e p T k).getD (k + 1 - 1) [] := by
        rw [padUpto]
        exact padStep_getD_ne e p _ (by omega)
      have hprevlen : ((padUpto e p T k).getD (k + 1 - 1) []).length = B := by
        have hl : k + 1 - 1 < (padUpto e p T k).length := by omega
        rw [List.getD_eq_getElem?_getD, List.getElem?_eq_getElem hl]
        exact hwfk _ (List.getElem_mem hl)
      have hcurlen : ((padUpto e p T k).getD (k + 1) []).length = B := by
        have hl : k + 1 < (padUpto e p T k).length := by omega
        rw [List.getD_eq_getElem?_getD, List.getElem?_eq_getElem hl]
        exact hwfk _ (List.getElem_mem hl)
      have hset : (padUpto e p T (k + 1)).getD (k + 1) []
          = List.zipWith (fun q c => if q = e ∨ q = p then p else c)
              ((padUpto e p T k).getD (k + 1 - 1) [])
              ((padUpto e p T k).getD (k + 1) []) := by
        rw [padUpto, padStep, List.getD_eq_getElem?_getD,
          List.getElem?_set_self (by omega : k + 1 < (padUpto e p T k).length)]
        rfl
      rw [hconeq] at hprev
      rw [hset, getD_zipWith _ _ _ b 0 0 0 (by rw [hprevlen]; exact hb)
        (by rw [hcurlen]; exact hb), if_pos hprev]

/-- C2: in every sequence returned by `LineCNNTransformer.forward`, a
token at position `i-1` equal to the end token or the padding token
forces the token at position `i` to be the padding token — the
post-processing loop propagates padding to the end of the sequence. -/
theorem padding_propagates (dc : DataConfig String) (args : ModelArgs) (w : TWeights)
    (memory : List Vec) (B : ℕ) (out : List (List ℕ)) (b i : ℕ)
    (h : LineCNNTransformer.forward (LineCNNTransformer.build dc args w) memory B
      = some out)
    (hb : b < B) (h1 : 1 ≤ i)
    (hi : i < (LineCNNTransformer.build dc args w).max_output_length)
    (hprev : (rowSeq out b).getD (i - 1) 0
          = (LineCNNTransformer.build dc args w).end_token ∨
        (rowSeq out b).getD (i - 1) 0
          = (LineCNNTransformer.build dc args w).padding_token) :
    (rowSeq out b).getD i 0
      = (LineCNNTransformer.build dc args w).padding_token := by
  rw [LineCNNTransformer.forward] at h
  cases hg : genUpto
      (LineCNNTransformer.decode (LineCNNTransformer.build dc args w) memory)
      (initTokens (LineCNNTransformer.build dc args w).max_output_length B
        (LineCNNTransformer.build dc args w).start_token
        (LineCNNTransformer.build dc args w).padding_token)
      ((LineCNNTransformer.build dc args w).max_output_length - 1) with
  | none => rw [hg] at h; simp at h
  | some T =>
    rw [hg] at h
    simp only [Option.map_some', Option.some.injEq] at h
    have hlT : T.length = (LineCNNTransformer.build dc args w).max_output_length := by
      rw [genUpto_length hg, initTokens_length]
    have hwfT : ∀ col ∈ T, col.length = B :=
      genUpto_colsWF hg (initTokens_colsWF _ _ _ _)
    have hout_len : out.length
        = (LineCNNTransformer.build dc args w).max_output_length := by
      rw [← h, padUpto_length, hlT]
    have hspec := padUpto_propagates
      (LineCNNTransformer.build dc args w).end_token
      (LineCNNTransformer.build dc args w).padding_token B T hwfT
      ((LineCNNTransformer.build dc args w).max_output_length - 1) (by omega)
      i b h1 (by omega) hb
    rw [rowSeq_getD out b i (by omega), ← h]
    rw [rowSeq_getD out b (i - 1) (by omega), ← h] at hprev
    exact hspec hprev

theorem padding_propagates_witness :
    (rowSeq [[0], [1], [2]] 0).getD 2 0
      = (LineCNNTransformer.build dcW argsW wW).padding_token :=
  padding_propagates dcW argsW wW [] 1 [[0], [1], [2]] 0 2 (by decide) (by decide)
    (by decide) (by decide) (by decide)

/-- C9: `decode` on an encoded memory and a `(B, Sy)` target prefix with
in-range tokens and `Sy ≤ max_output_length` succeeds and returns a
`(Sy, B, C)` logit tensor: one logit vector per target-prefix position,
with class count `C = len(mapping)`. -/
theorem decode_output_shape (dc : DataConfig String) (args : ModelArgs) (w : TWeights)
    (memory : List Vec) (y : List (List ℕ)) (B : ℕ)
    (hcols : ∀ col ∈ y, col.length = B)
    (helem : ∀ col ∈ y, ∀ t ∈ col,
      t < (LineCNNTransformer.build dc args w).num_classes)
    (hSy : y.length ≤ (LineCNNTransformer.build dc args w).max_output_length) :
    ∃ out, LineCNNTransformer.decode (LineCNNTransformer.build dc args w) memory y
        = some out ∧
      out.length = y.length ∧
      (∀ row ∈ out, row.length = (if y.length = 0 then 0 else B) ∧
        ∀ v ∈ row, v.length = dc.mapping.length) := by
  have hm : (LineCNNTransformer.build dc args w).y_mask
      = squareSubsequentMask (LineCNNTransformer.build dc args w).max_output_length := rfl
  have hfits := (maskFits_iff _ _ hm _).mpr hSy
  have hsome : (LineCNNTransformer.decode (LineCNNTransformer.build dc args w) memory
      y).isSome = true := by
    rw [LineCNNTransformer.decode, if_pos hfits]
    rfl
  obtain ⟨out, hout⟩ := Option.isSome_iff_exists.mp hsome
  obtain ⟨hlen, hrows⟩ := decode_shape _ _ _ _ hout
  refine ⟨out, hout, hlen, ?_⟩
  intro row hrow
  obtain ⟨hrl, hv⟩ := hrows row hrow
  constructor
  · rw [hrl]
    cases y with
    | nil =>
      exfalso
      have hout0 : out = [] := List.eq_nil_of_length_eq_zero (by rw [hlen]; rfl)
      rw [hout0] at hrow
      simp at hrow
    | cons c rest =>
      simp only [List.headD_cons, List.length_cons]
      rw [if_neg (by simp)]
      exact hcols c (List.mem_cons_self c rest)
  · intro v hvr
    rw [hv v hvr]
    simp [LineCNNTransformer.build]

theorem decode_output_shape_witness :
    ∃ out, LineCNNTransformer.decode (LineCNNTransformer.build dcW argsW wW) []
        [[0], [1]] = some out ∧
      out.length = 2 ∧
      (∀ row ∈ out, row.length = (if (2 : ℕ) = 0 then 0 else 1) ∧
        ∀ v ∈ row, v.length = 3) :=
  decode_output_shape dcW argsW wW [] [[0], [1]] 1 (by decide) (by decide) (by decide)

/-- C7: the embedding dimension of the sequence `encode` produces — the
channel count of the wrapped `LineCNN` — equals the decoder model
dimension `self.dim`, because the `LineCNN` is constructed on a data
config whose mapping is `list(range(dim))`. -/
theorem encoder_dim_eq_decoder_dim (dc : DataConfig String) (args : ModelArgs)
    (w : TWeights) :
    (LineCNNTransformer.build dc args w).line_cnn.num_classes
        = (LineCNNTransformer.build dc args w).dim ∧
      ∀ B H W : ℕ,
        (LineCNNTransformer.encodeShape (LineCNNTransformer.build dc args w) B H W).2.2
          = (LineCNNTransformer.build dc args w).dim := by
  constructor
  · simp [LineCNNTransformer.build, LineCNN.build]
  · intro B H W
    simp [LineCNNTransformer.encodeShape, LineCNN.forwardShape,
      LineCNNTransformer.build, LineCNN.build]

/-- Agreement of two lists at every position `≤ i`, with equal lengths. -/
def agreeUpto {α : Type} (i : ℕ) (u v : List α) : Prop :=
  u.length = v.length ∧ ∀ s, s ≤ i → u[s]? = v[s]?

theorem agreeUpto_refl {α : Type} (i : ℕ) (u : List α) : agreeUpto i u u :=
  ⟨rfl, fun _ _ => rfl⟩

theorem agreeUpto_getD {α : Type} {i : ℕ} {u v : List α} (h : agreeUpto i u v)
    (s : ℕ) (hs : s ≤ i) (d : α) : u.getD s d = v.getD s d := by
  rw [List.getD_eq_getElem?_getD, List.getD_eq_getElem?_getD, h.2 s hs]

theorem agreeUpto_map {α β : Type} (f : α → β) {i : ℕ} {u v : List α}
    (h : agreeUpto i u v) : agreeUpto i (u.map f) (v.map f) :=
  ⟨by simp [h.1], fun s hs => by rw [List.getElem?_map, List.getElem?_map, h.2 s hs]⟩

theorem agreeUpto_zipWith {α β γ : Type} (g : α → β → γ) {i : ℕ} {u v : List α}
    {u' v' : List β} (h : agreeUpto i u v) (h' : agreeUpto i u' v') :
    agreeUpto i (List.zipWith g u u') (List.zipWith g v v') :=
  ⟨by simp [List.length_zipWith, h.1, h'.1],
   fun s hs => by
     rw [List.getElem?_zipWith', List.getElem?_zipWith', h.2 s hs, h'.2 s hs]⟩

theorem agreeUpto_addVL {i : ℕ} {a b a' b' : List Vec}
    (h : agreeUpto i a a') (h' : agreeUpto i b b') :
    agreeUpto i (addVL a b) (addVL a' b') :=
  agreeUpto_zipWith _ h h'

/-- Two masked-softmax head outputs coincide when the allow predicates
coincide, every allowed key index is `≤ i`, the queries coincide and the
key/value sequences agree up to `i`: masked-out keys contribute weight 0
regardless of their (possibly differing) values. -/
theorem headOut_congr (expF : ℚ → ℚ) (hd : AttnHead) {allow allow' : ℕ → Bool}
    {q q' : Vec} {kvs kvs' : List Vec} {i : ℕ}
    (hallow : ∀ j, allow j = allow' j)
    (hbound : ∀ j, allow j = true → j ≤ i)
    (hq : q = q') (hkv : agreeUpto i kvs kvs') :
    headOut expF allow hd q kvs = headOut expF allow' hd q' kvs' := by
  subst hq
  have hlen : kvs.length = kvs'.length := hkv.1
  have hraw : ∀ j, j < kvs.length →
      rawW expF allow hd q kvs j = rawW expF allow' hd q kvs' j := by
    intro j _
    rw [rawW, rawW, ← hallow j]
    cases ha : allow j with
    | false => simp
    | true =>
      have hkvj := hkv.2 j (hbound j ha)
      simp [hkvj]
  have hdenom : ((List.range kvs.length).map (rawW expF allow hd q kvs)).sum
      = ((List.range kvs.length).map (rawW expF allow' hd q kvs')).sum :=
    congrArg List.sum
      (List.map_congr_left (fun j hj => hraw j (List.mem_range.mp hj)))
  simp only [headOut]
  rw [← hlen, hdenom]
  apply congrArg List.sum
  apply List.map_congr_left
  intro j hj
  have hj' := List.mem_range.mp hj
  by_cases ha : allow j = true
  · have hjle := hbound j ha
    rw [hraw j hj', agreeUpto_getD hkv j hjle (0 : Vec)]
  · have h0 : rawW expF allow hd q kvs j = 0 := by
      rw [rawW, if_neg ha]
    have h0' : rawW expF allow' hd q kvs' j = 0 := by
      rw [rawW, if_neg (by rw [← hallow j]; exact ha)]
    rw [h0, h0', zero_div, zero_smul, zero_smul]

/-- Causally masked self-attention preserves agreement up to `i`: the
output at a query position `s ≤ i` only reads keys/values at positions
`j ≤ s`. -/
theorem mhaOut_self_agree (expF : ℚ → ℚ) (M : MHA) {i : ℕ}
    {allowed allowed' : ℕ → ℕ → Bool} {t t' : List Vec}
    (ht : agreeUpto i t t')
    (hc : ∀ s j, allowed s j = true → j ≤ s)
    (heq : ∀ s j, s ≤ i → allowed s j = allowed' s j) :
    agreeUpto i (mhaOut expF M allowed t t) (mhaOut expF M allowed' t' t') := by
  refine ⟨by simp [mhaOut, ht.1], fun s hs => ?_⟩
  rw [mhaOut, mhaOut, getElem?_rangeMap, getElem?_rangeMap, ht.1]
  by_cases hsn : s < t'.length
  · rw [if_pos hsn, if_pos hsn]
    apply congrArg some
    apply congrArg M.outProj
    apply List.map_congr_left
    intro hd _
    exact headOut_congr expF hd (fun j => heq s j hs)
      (fun j ha => le_trans (hc s j ha) hs)
      (agreeUpto_getD ht s hs (0 : Vec)) ht
  · rw [if_neg hsn, if_neg hsn]

/-- Unmasked cross-attention to the same memory preserves agreement up
to `i`: the output at query position `s` reads only the query at `s` and
the memory. -/
theorem mhaOut_cross_agree (expF : ℚ → ℚ) (M : MHA) {i : ℕ} {q q' : List Vec}
    (mem : List Vec) (hq : agreeUpto i q q') :
    agreeUpto i (mhaOut expF M (fun _ _ => true) q mem)
      (mhaOut expF M (fun _ _ => true) q' mem) := by
  refine ⟨by simp [mhaOut, hq.1], fun s hs => ?_⟩
  rw [mhaOut, mhaOut, getElem?_rangeMap, getElem?_rangeMap, hq.1]
  by_cases hsn : s < q'.length
  · rw [if_pos hsn, if_pos hsn]
    apply congrArg some
    apply congrArg M.outProj
    apply List.map_congr_left
    intro hd _
    rw [agreeUpto_getD hq s hs (0 : Vec)]
  · rw [if_neg hsn, if_neg hsn]

theorem layerForward_agree (expF : ℚ → ℚ) (L : DecoderLayerP) (mem : List Vec) {i : ℕ}
    {allowed allowed' : ℕ → ℕ → Bool} {t t' : List Vec}
    (ht : agreeUpto i t t')
    (hc : ∀ s j, allowed s j = true → j ≤ s)
    (heq : ∀ s j, s ≤ i → allowed s j = allowed' s j) :
    agreeUpto i (layerForward expF L mem allowed t)
      (layerForward expF L mem allowed' t') := by
  simp only [layerForward]
  have h2 := agreeUpto_map L.norm1 ht
  have ht1 := agreeUpto_addVL ht (mhaOut_self_agree expF L.self_attn h2 hc heq)
  have ht2 := agreeUpto_addVL ht1
    (mhaOut_cross_agree expF L.cross_attn mem (agreeUpto_map L.norm2 ht1))
  exact agreeUpto_addVL ht2 (agreeUpto_map L.ffn (agreeUpto_map L.norm3 ht2))

theorem foldl_layers_agree (expF : ℚ → ℚ) (mem : List Vec) {i : ℕ}
    {allowed allowed' : ℕ → ℕ → Bool}
    (hc : ∀ s j, allowed s j = true → j ≤ s)
    (heq : ∀ s j, s ≤ i → allowed s j = allowed' s j)
    (layers : List DecoderLayerP) {t t' : List Vec} (ht : agreeUpto i t t') :
    agreeUpto i (layers.foldl (fun u L => layerForward expF L mem allowed u) t)
      (layers.foldl (fun u L => layerForward expF L mem allowed' u) t') := by
  induction layers generalizing t t' with
  | nil => exact ht
  | cons L ls ih => exact ih (layerForward_agree expF L mem ht hc heq)

theorem allowedFn_causal (m : TModel) (n : ℕ)
    (hm : m.y_mask = squareSubsequentMask n) (y : List ℕ) :
    ∀ s j, allowedFn m y s j = true → j ≤ s := by
  intro s j h
  rw [allowedFn, Bool.and_eq_true] at h
  apply sliceMask_causal n y.length s j
  rw [← hm]
  exact h.1

theorem agreeUpto_posEnc (pe : ℕ → Vec) {i : ℕ} {u v : List Vec}
    (h : agreeUpto i u v) : agreeUpto i (posEnc pe u) (posEnc pe v) := by
  simp only [posEnc]
  exact agreeUpto_zipWith _ h ⟨by rw [h.1], fun s _ => by rw [h.1]⟩

/-- Core of the causal-masking hyperproperty, per batch element: two
token prefixes of the same length that agree at all positions `≤ i`
yield, through the whole decoder pipeline, logits that agree at all
positions `≤ i`. -/
theorem decodeSeqCore_agree (m : TModel) (mem : List Vec) (n : ℕ)
    (hm : m.y_mask = squareSubsequentMask n) {i : ℕ} {y y' : List ℕ}
    (hy : agreeUpto i y y') :
    agreeUpto i (decodeSeqCore m mem y) (decodeSeqCore m mem y') := by
  have hlen : y.length = y'.length := hy.1
  have hc : ∀ s j, allowedFn m y s j = true → j ≤ s := allowedFn_causal m n hm y
  have hpm := agreeUpto_map (fun t => decide (t = m.padding_token)) hy
  have heq : ∀ s j, s ≤ i → allowedFn m y s j = allowedFn m y' s j := by
    intro s j hs
    simp only [allowedFn, padMaskL]
    rw [← hlen]
    cases hcausal : ((sliceMask m.y_mask y.length).getD s []).getD j false with
    | false => rfl
    | true =>
      have hj : j ≤ s := by
        apply sliceMask_causal n y.length s j
        rw [← hm]
        exact hcausal
      have hpmj := agreeUpto_getD hpm j (le_trans hj hs) false
      rw [hpmj]
  simp only [decodeSeqCore]
  exact agreeUpto_map _ (foldl_layers_agree m.expF mem hc heq m.layers
    (agreeUpto_posEnc m.pe (agreeUpto_map _ hy)))

/-- C4: causal masking in `decode` — for any encoded memory and any two
target prefixes of the same length that agree at all positions `0 .. i`,
the logits the two decode calls produce agree at every position `≤ i`
(deterministic dropout-free evaluation): no position's output depends on
later target positions. -/
theorem decode_causal_independence (dc : DataConfig String) (args : ModelArgs)
    (w : TWeights) (memory : List Vec) (y y' : List (List ℕ)) (i : ℕ)
    (hlen : y.length = y'.length)
    (hagree : ∀ j, j ≤ i → y[j]? = y'[j]?)
    (o o' : List (List (List ℚ)))
    (ho : LineCNNTransformer.decode (LineCNNTransformer.build dc args w) memory y
      = some o)
    (ho' : LineCNNTransformer.decode (LineCNNTransformer.build dc args w) memory y'
      = some o') :
    ∀ s, s ≤ i → o.getD s [] = o'.getD s [] := by
  have hm : (LineCNNTransformer.build dc args w).y_mask
      = squareSubsequentMask (LineCNNTransformer.build dc args w).max_output_length := rfl
  have hfits : maskFits (LineCNNTransformer.build dc args w) y.length = true := by
    by_contra hf
    rw [LineCNNTransformer.decode, if_neg hf] at ho
    simp at ho
  have hfits' : maskFits (LineCNNTransformer.build dc args w) y'.length = true := by
    rw [← hlen]
    exact hfits
  rw [LineCNNTransformer.decode, if_pos hfits, Option.some.injEq] at ho
  rw [LineCNNTransformer.decode, if_pos hfits', Option.some.injEq] at ho'
  subst ho ho'
  have hB : (y.headD []).length = (y'.headD []).length := by
    cases y with
    | nil =>
      cases y' with
      | nil => rfl
      | cons c' r' => simp at hlen
    | cons c r =>
      cases y' with
      | nil => simp at hlen
      | cons c' r' =>
        have h0 := hagree 0 (Nat.zero_le i)
        simp only [List.getElem?_cons_zero, Option.some.injEq] at h0
        rw [List.headD_cons, List.headD_cons, h0]
  intro s hs
  rw [List.getD_eq_getElem?_getD, List.getD_eq_getElem?_getD, getElem?_rangeMap,
    getElem?_rangeMap, ← hlen]
  by_cases hsn : s < y.length
  · rw [if_pos hsn, if_pos hsn]
    simp only [Option.getD_some]
    rw [← hB]
    apply List.map_congr_left
    intro b _
    have hseq : agreeUpto i (y.map (fun col => col.getD b 0))
        (y'.map (fun col => col.getD b 0)) := agreeUpto_map _ ⟨hlen, hagree⟩
    exact agreeUpto_getD
      (decodeSeqCore_agree (LineCNNTransformer.build dc args w) memory
        (LineCNNTransformer.build dc args w).max_output_length hm hseq) s hs []
  · rw [if_neg hsn, if_neg hsn]

theorem decode_causal_independence_witness :
    ([[[0, 1, 0]], [[0, 1, 0]]] : List (List (List ℚ))).getD 0 []
      = ([[[0, 1, 0]], [[0, 1, 0]]] : List (List (List ℚ))).getD 0 [] :=
  decode_causal_independence dcW argsW wW [] [[0], [1]] [[0], [2]] 0 (by decide)
    (fun j hj => by
      obtain rfl := Nat.le_zero.mp hj
      decide)
    [[[0, 1, 0]], [[0, 1, 0]]] [[[0, 1, 0]], [[0, 1, 0]]]
    (by decide) (by decide) 0 (Nat.le_refl 0)
